import Mathlib

/-!
Verification of the `quantiphyse-asl` plugin (packages `basil/qpwrap.py` and
`basil/process.py`) against its natural-language specification.

The Python code is shallowly embedded: pure fragments become Lean functions,
the stateful BASIL pipeline driver becomes explicit state passing over a
`BState` record, Python dictionaries become association lists with the update
semantics of CPython dicts, and external library calls (`re.match`, `float`,
`str` on floats, the filesystem) are abstracted as function parameters.
-/

namespace QpAsl

/-! ## Python scalar values

`Workspace.fabber` (qpwrap.py lines 287-315) serialises an arbitrary option
dictionary.  The values that can reach the serialisation loop are `None`,
booleans, integers and strings, so we model exactly that sum.  Equality tests
(`v == ""`, `v == True`) and truthiness (`elif v:`) follow CPython semantics,
where `True == 1` and `False == 0` hold across the bool/int divide. -/

inductive PyVal : Type
  | none : PyVal
  | bool : Bool → PyVal
  | int : Int → PyVal
  | str : String → PyVal
  deriving DecidableEq, Repr

/-- CPython `v == True`: true for `True` itself and for the integer 1
(booleans are a subtype of int in Python, `1 == True`). -/
def PyVal.eqTrue : PyVal → Bool
  | .bool b => b
  | .int n => n == 1
  | _ => false

/-- CPython `v == ""`: only the empty string compares equal to `""`. -/
def PyVal.eqEmptyStr : PyVal → Bool
  | .str s => s == ""
  | _ => false

/-- CPython truthiness as used by `elif v:`. -/
def PyVal.truthy : PyVal → Bool
  | .none => false
  | .bool b => b
  | .int n => n != 0
  | .str s => s != ""

/-- CPython `str(v)` for the values in our model. -/
def PyVal.pystr : PyVal → String
  | .none => "None"
  | .bool b => if b then "True" else "False"
  | .int n => toString n
  | .str s => s

/-! ## C2: option serialisation in `Workspace.fabber`

qpwrap.py lines 307-311:
```
for k, v in options.items():
    if v == "" or v == True:
        option_args += " --%s" % k
    elif v:
        option_args += " --%s=%s" % (k, str(v))
```
-/

/-- The contribution of a single `(k, v)` entry to `option_args`. -/
def fabberOptionArg (k : String) (v : PyVal) : String :=
  if v.eqEmptyStr || v.eqTrue then " --" ++ k
  else if v.truthy then " --" ++ k ++ "=" ++ v.pystr
  else ""

/-- The whole `option_args` accumulation loop of `Workspace.fabber`. -/
def fabberOptionArgs (options : List (String × PyVal)) : String :=
  options.foldl (fun acc kv => acc ++ fabberOptionArg kv.1 kv.2) ""

/-! ## C1: workspace file diffing

`Workspace._get_files` returns a dict mapping file name to modification time;
we model such a snapshot as an association list `List (String × ℚ)` with
distinct keys (modification times are floats, modelled as rationals).
`re.match(exp, fname)` is abstracted as a boolean relation `rmatch`. -/

/-- Dict membership / lookup for a file-set snapshot (`f in pre`, `pre[f]`). -/
def flookup (m : List (String × ℚ)) (f : String) : Option ℚ :=
  match m with
  | [] => Option.none
  | (g, t) :: rest => if g = f then some t else flookup rest f

/-- `Workspace._changed_files` (qpwrap.py lines 517-529):
files of `post` that are absent from `pre` or whose mtime strictly grew. -/
def changed_files (pre post : List (String × ℚ)) : List String :=
  (post.filter (fun ft =>
    match flookup pre ft.1 with
    | Option.none => true
    | some t0 => decide (ft.2 > t0))).map Prod.fst

/-- `Workspace._get_return_files` (qpwrap.py lines 531-548), up to the point
where `return_files` is fixed (classification into images/text is modelled
separately, see `run_model`).  For non-empty `expected` the code appends
`fname` once per pattern that matches it. -/
def get_return_files (rmatch : String → String → Bool)
    (pre post : List (String × ℚ)) (expected : List String) : List String :=
  if expected.isEmpty then changed_files pre post
  else
    (post.map Prod.fst).flatMap (fun fname =>
      (expected.filter (fun exp => rmatch exp fname)).map (fun _ => fname))

/-! ## C8: extension inference (`Image._guess_extension`, qpwrap.py 22-37)

```
exts = ["", ".nii", ".nii.gz"]
self.ext_matches = []
for ext in exts:
    if os.path.exists("%s%s" % (self.ipath, ext)):
        self.ext_matches.append(ext)
if self.ext_matches:
    self.ext = self.ext_matches[0]
```
The filesystem is abstracted as a predicate `fsExists`.  When no candidate
exists, `self.ext` keeps its prior value. -/

/-- The ranked candidate extension list of `_guess_extension`. -/
def guessExts : List String := ["", ".nii", ".nii.gz"]

/-- The `ext_matches` list: candidates (in ranked order) for which a file
exists at `ipath ++ ext`. -/
def ext_matches (fsExists : String → Bool) (ipath : String) : List String :=
  guessExts.filter (fun ext => fsExists (ipath ++ ext))

/-- `_guess_extension`: the resulting `self.ext`, given its value `prevExt`
before the call (the code only overwrites `ext` when a candidate exists). -/
def guess_extension (fsExists : String → Bool) (ipath : String)
    (prevExt : String) : String :=
  match ext_matches fsExists ipath with
  | [] => prevExt
  | ext :: _ => ext

/-- Modelled from the spec: the `Image` constructor is not part of the
source tree given here (the head of qpwrap.py is missing); per the spec,
"defaulting to the most common compressed extension if none exist yet", the
extension initially defaults to the compressed Nifti extension `.nii.gz`,
which `_guess_extension` then leaves in place when no candidate file
exists. -/
def defaultImageExt : String := ".nii.gz"

/-! ## C9: result unwrapping in the tool wrappers

A Python function can return a bare object, a list, or a tuple; we record
which shape is returned. -/

inductive PyRet (α : Type) : Type
  | single : α → PyRet α
  | list : List α → PyRet α
  | tuple : List α → PyRet α
  deriving DecidableEq, Repr

/-- `Workspace.bet` result unwrapping (qpwrap.py lines 282-285):
```
ret = [self._output_img(i, itype) for i in imgs]
if len(ret) == 1:
    return ret[0]
return tuple(ret)
```
`ret` is non-empty in every successful call (`imgs[0]` style access by the
callers); for the empty list we return the empty tuple, unreachable. -/
def bet_unwrap {α : Type} (ret : List α) : PyRet α :=
  match ret with
  | [r] => .single r
  | rs => .tuple rs

/-- `Workspace.flirt` result unwrapping (qpwrap.py lines 361-363):
```
if len(ret) == 1:
    return ret
return tuple(ret)
```
Note the one-element case returns the *list* `ret` itself. -/
def flirt_unwrap {α : Type} (ret : List α) : PyRet α :=
  match ret with
  | [r] => .list [r]
  | rs => .tuple rs

/-! ## C6 and C10: `Workspace.run` (qpwrap.py lines 219-265)

```
cwd = os.getcwd()
try:
    os.chdir(self.workdir)
    cmd = self._find(prog)
    ...
    p = subprocess.Popen(...)
    retcode = p.wait()
    if retcode != 0:
        raise RuntimeError(...)
    post_run_files = self._get_files()
    imgs, text = self._get_return_files(pre_run_files, post_run_files, expected)
    return imgs, text
finally:
    os.chdir(cwd)
```
The subprocess world is abstracted: an `RunEnv` bundles the abstract
filesystem snapshots, the program-launch outcome, and the classification of
each output file (the `try Image / except try text` ladder). -/

/-- How the `try Image(fname) / except: try read text / except: raise`
ladder of `_get_return_files` classifies one file. -/
inductive FileKind : Type
  | image : FileKind
  | text : String → FileKind
  | unreadable : FileKind
  deriving DecidableEq, Repr

/-- One component of the Python tuple `run` returns. -/
inductive RunComp : Type
  | imgsComp : List String → RunComp
  | textComp : List (String × String) → RunComp
  | statusComp : Int → RunComp
  deriving DecidableEq, Repr

/-- `os.path.basename`: the part after the last path separator. -/
def pyBasename (f : String) : String :=
  ((f.splitOn "/").getLast? ).getD f

/-- The `imgs` list built from `return_files`: files that load as images. -/
def runImgs (classify : String → FileKind) (returnFiles : List String) :
    List String :=
  returnFiles.filter (fun f => classify f = FileKind.image)

/-- The `text` dict built from `return_files`: non-image readable files,
keyed by basename. -/
def runText (classify : String → FileKind) (returnFiles : List String) :
    List (String × String) :=
  returnFiles.filterMap (fun f =>
    match classify f with
    | FileKind.text content => some (pyBasename f, content)
    | _ => Option.none)

/-- Abstract environment for one `Workspace.run` call. -/
structure RunEnv : Type where
  /-- launch fails (`Popen` raises: program not found / not executable) -/
  launchFails : Bool
  /-- `p.wait()` exit status when the launch succeeded -/
  retcode : Int
  /-- `self._get_files()` before the command -/
  pre : List (String × ℚ)
  /-- `self._get_files()` after the command -/
  post : List (String × ℚ)
  /-- abstract `re.match` -/
  rmatch : String → String → Bool
  /-- classification of each candidate return file -/
  classify : String → FileKind

/-- The value `Workspace.run` produces (inside the `try`): the Python pair
`imgs, text` as a tuple of components, or an exception.  Faithful to the
source: the happy path executes `return imgs, text` — a 2-tuple; the exit
status is never part of the returned value (non-zero status raises). -/
def run_result (env : RunEnv) (expected : List String) :
    Except String (List RunComp) :=
  if env.launchFails then .error "launch failed"
  else if env.retcode != 0 then .error "Non-zero output status"
  else
    let returnFiles := get_return_files env.rmatch env.pre env.post expected
    if returnFiles.any (fun f => env.classify f = FileKind.unreadable) then
      .error "Could not handle output file"
    else
      .ok [RunComp.imgsComp (runImgs env.classify returnFiles),
           RunComp.textComp (runText env.classify returnFiles)]

/-- The observable directory state threaded through `run` for C10. -/
structure CwdState : Type where
  cwd : String
  deriving DecidableEq, Repr

/-- `Workspace.run` with the working-directory side effect made explicit:
`cwd = os.getcwd(); try: os.chdir(self.workdir); ... finally: os.chdir(cwd)`.
Every path through the `try` block — launch failure, non-zero exit status,
output-recovery failure, or normal return — flows through the `finally`,
which restores the saved `cwd`. -/
def run_with_cwd (workdir : String) (env : RunEnv) (expected : List String)
    (s : CwdState) : Except String (List RunComp) × CwdState :=
  let saved := s.cwd
  let s1 : CwdState := { cwd := workdir }
  let result := run_result env expected
  -- the `finally` clause: os.chdir(cwd), executed on every path
  let s2 : CwdState := { s1 with cwd := saved }
  (result, s2)

/-! ## C3 / C4: the BASIL pipeline driver (`BasilProcess`, process.py)

The driver is a callback-driven state machine.  We embed its mutable fields
(`status`, `log`, `step_num`, `steps`, plus the `ivm` data store) as a record
and its methods `_next_step`, `_start_fabber`, `_fabber_finished`,
`_fabber_progress` as state transformers.  Emitted Qt signals and the
`fabber.execute`/`ivm.delete_data` calls are recorded in an event trace. -/

/-- `Process` status constants (from the quantiphyse `Process` base class). -/
inductive PStatus : Type
  | notStarted : PStatus
  | running : PStatus
  | succeeded : PStatus
  | failed : PStatus
  | cancelled : PStatus
  deriving DecidableEq, Repr

/-- A value in a fabber option dict: a plain string, or the
`output-rename` table. -/
inductive FabVal : Type
  | s : String → FabVal
  | renameTbl : List (String × String) → FabVal
  deriving DecidableEq, Repr

/-- CPython dict assignment `d[k] = v` on an association list with distinct
keys: update in place if present, append otherwise. -/
def dset (d : List (String × FabVal)) (k : String) (v : FabVal) :
    List (String × FabVal) :=
  match d with
  | [] => [(k, v)]
  | (k1, v1) :: rest =>
      if k1 = k then (k, v) :: rest else (k1, v1) :: dset rest k v

/-- CPython dict lookup `d[k]` / `k in d`. -/
def dget (d : List (String × FabVal)) (k : String) : Option FabVal :=
  match d with
  | [] => Option.none
  | (k1, v1) :: rest => if k1 = k then some v1 else dget rest k

/-- One element of `BasilProcess.steps`, as produced by `basil.get_steps`:
the tuple `(step, step_desc, infile, mask, options)` optionally followed by
`prev_step` (the arguments of `_start_fabber`).  Images are referred to by
their `iname`. -/
structure Step : Type where
  stepId : Nat
  desc : String
  infileName : String
  maskName : String
  options : List (String × FabVal)
  prevStep : Option Nat := Option.none
  deriving DecidableEq, Repr

/-- Externally observable actions of the driver, in emission order. -/
inductive BEvent : Type
  | sigStep : String → BEvent
  | fabberExec : List (String × FabVal) → BEvent
  | sigFinished : PStatus → BEvent
  | sigProgress : ℚ → BEvent
  | deleteData : String → BEvent
  deriving DecidableEq, Repr

/-- The mutable state of a `BasilProcess` plus its event trace. -/
structure BState : Type where
  status : PStatus
  log : String
  stepNum : Nat
  steps : List Step
  /-- names present in `self.ivm.data` -/
  ivmData : List String
  events : List BEvent
  deriving DecidableEq, Repr

/-- The static `output-rename` table of `_start_fabber` (process.py 220-227). -/
def outputRenameTbl : List (String × String) :=
  [("mean_ftiss", "perfusion"), ("mean_deltiss", "arrival"),
   ("mean_fblood", "aCBV"), ("std_ftiss", "perfusion_std"),
   ("std_deltiss", "arrival_std"), ("std_fblood", "aCBV_std")]

/-- The option dict `_start_fabber` hands to `fabber.execute`
(process.py lines 206-231), built from the step's own options.  `isFinal`
is `self.step_num == len(self.steps)`. -/
def startFabberOptions (st : Step) (isFinal : Bool) :
    List (String × FabVal) :=
  let o := dset st.options "model-group" (.s "asl")
  let o := dset o "data" (.s st.infileName)
  let o := dset o "roi" (.s st.maskName)
  let o :=
    if isFinal then
      dset (dset (dset o "save-mean" (.s "")) "save-std" (.s ""))
        "save-model-fit" (.s "")
    else
      dset o "save-mvn" (.s "")
  let o := dset o "output-rename" (.renameTbl outputRenameTbl)
  match st.prevStep with
  | Option.none => o
  | some _ => dset o "continue-from-mvn" (.s "finalMVN")

/-- `BasilProcess._start_fabber` (process.py lines 203-238): emits
`sig_step`, builds the option dict, appends the step description to the
log and calls `fabber.execute`.  Called with `self.step_num` already
incremented by `_next_step`. -/
def startFabber (s : BState) (st : Step) : BState :=
  let s := { s with events := s.events ++ [BEvent.sigStep st.desc] }
  let o := startFabberOptions st (s.stepNum = s.steps.length)
  let desc2 :=
    match st.prevStep with
    | Option.none => st.desc
    | some p => st.desc ++ " - init with STEP " ++ toString p
  { s with log := s.log ++ desc2 ++ "\n\n",
           events := s.events ++ [BEvent.fabberExec o] }

/-- `BasilProcess._next_step` (process.py lines 184-201). -/
def nextStep (s : BState) : BState :=
  if s.status ≠ PStatus.running then s
  else if h : s.stepNum < s.steps.length then
    let st := s.steps.get ⟨s.stepNum, h⟩
    startFabber { s with stepNum := s.stepNum + 1 } st
  else
    let s1 := { s with log := s.log ++ "COMPLETE\n",
                       status := PStatus.succeeded,
                       steps := [], stepNum := 0 }
    let s2 :=
      if "finalMVN" ∈ s1.ivmData then
        { s1 with ivmData := s1.ivmData.filter (fun n => n ≠ "finalMVN"),
                  events := s1.events ++ [BEvent.deleteData "finalMVN"] }
      else s1
    { s2 with events := s2.events ++ [BEvent.sigFinished PStatus.succeeded] }

/-- `BasilProcess._fabber_finished` (process.py lines 240-252). -/
def fabberFinished (s : BState) (st : PStatus) (lg : String) : BState :=
  if s.status ≠ PStatus.running then s
  else
    let s := { s with log := s.log ++ lg ++ "\n\n" }
    if st = PStatus.succeeded then nextStep s
    else
      { s with log := s.log ++ "CANCELLED\n", status := st,
               events := s.events ++ [BEvent.sigFinished st] }

/-- `BasilProcess._fabber_progress` (process.py lines 254-258). -/
def fabberProgress (s : BState) (complete : ℚ) : BState :=
  if s.status = PStatus.running then
    { s with events := s.events ++
        [BEvent.sigProgress
          (((s.stepNum : ℚ) - 1 + complete) / (s.steps.length : ℚ))] }
  else s

/-! ## C5: tau / TI option derivation (`BasilProcess.run`, process.py 155-170)

```
if self.struc["casl"]:
    options["casl"] = ""
    taus = self.struc["taus"]
    if min(taus) == max(taus):
        options["tau"] = str(taus[0])
    else:
        for idx, tau in enumerate(taus):
            options["tau%i" % (idx+1)] = str(tau)
for idx, ti in enumerate(self.asldata.tis):
    if self.struc["casl"]:
        ti += taus[idx]
    options["ti%i" % (idx+1)] = str(ti)
```
Label durations and inversion times are Python floats, modelled as
rationals; `str` on floats is abstracted as a parameter `pystr`. -/

/-- Python `min` over a non-empty list (`min([])` raises; the default is a
dummy for the empty case, which the theorems exclude). -/
def pyMin (l : List ℚ) : ℚ :=
  match l with
  | [] => 0
  | x :: xs => xs.foldl min x

/-- Python `max` over a non-empty list. -/
def pyMax (l : List ℚ) : ℚ :=
  match l with
  | [] => 0
  | x :: xs => xs.foldl max x

/-- The options added by the tau/TI block of `BasilProcess.run`, in
insertion order (`taus[idx]` out of range would raise in Python; the
theorems assume `tis.length ≤ taus.length`). -/
def basilTimingOptions (pystr : ℚ → String) (casl : Bool)
    (taus tis : List ℚ) : List (String × String) :=
  (if casl then
    ("casl", "") ::
      (if pyMin taus = pyMax taus then [("tau", pystr (taus.headD 0))]
       else taus.enum.map (fun it =>
         ("tau" ++ toString (it.1 + 1), pystr it.2)))
   else []) ++
  tis.enum.map (fun it =>
    ("ti" ++ toString (it.1 + 1),
     pystr (if casl then it.2 + taus.getD it.1 0 else it.2)))

/-! ## C7: matrix text round-trip (`matrix_to_text` / `text_to_matrix`,
qpwrap.py lines 566-600)

Python strings are modelled as `List Char`.  `str(float)` and
`float(str)` are abstracted as parameters `numStr` / `pf`; the claim's
"within floating-point tolerance" is captured by the round-trip hypothesis
`pf (numStr v) = some v` (CPython guarantees `float(str(x)) == x`). -/

/-- Whitespace for `str.split()` / `str.strip()` (the ASCII cases). -/
def pyWs (c : Char) : Bool :=
  c = ' ' || c = '\t' || c = '\r' || c = '\n'

/-- Split a character list at every separator character (keeping empty
fields), the common core of `str.split(sep)` and `str.splitlines`. -/
def splitP (p : Char → Bool) : List Char → List (List Char)
  | [] => [[]]
  | c :: cs =>
    if p c then [] :: splitP p cs
    else
      match splitP p cs with
      | [] => [[c]]
      | h :: t => (c :: h) :: t

/-- Python `sep.join(rows)` for a one-character separator. -/
def joinSep (sep : Char) : List (List Char) → List Char
  | [] => []
  | [r] => r
  | r :: rest => r ++ sep :: joinSep sep rest

/-- Python `s.split()` with no argument: whitespace runs separate words,
no empty fields. -/
def pyWords (l : List Char) : List (List Char) :=
  (splitP pyWs l).filter (fun w => w ≠ [])

/-- Python `s.splitlines()` restricted to `\n` line endings: like splitting
on `\n` but without a trailing empty field for a trailing newline. -/
def pySplitlines (l : List Char) : List (List Char) :=
  if l.isEmpty then []
  else
    let parts := splitP (fun c => c = '\n') l
    if parts.getLast? = some [] then parts.dropLast else parts

/-- Python `s.strip()` (ASCII whitespace). -/
def pyStrip (l : List Char) : List Char :=
  ((l.dropWhile pyWs).reverse.dropWhile pyWs).reverse

/-- `matrix_to_text` (qpwrap.py lines 566-573):
`"\n".join(" ".join([str(v) for v in row]) for row in mat)`. -/
def matrix_to_text {Num : Type} (numStr : Num → List Char)
    (mat : List (List Num)) : List Char :=
  joinSep '\n' (mat.map (fun row => joinSep ' ' (row.map numStr)))

/-- The `vals` computed for one line of `text_to_matrix`
(qpwrap.py lines 584-586): strip the `#` comment, `strip()`, replace commas
by spaces, split on whitespace. -/
def lineVals (line : List Char) : List (List Char) :=
  pyWords ((pyStrip (line.takeWhile (fun c => c ≠ '#'))).map
    (fun c => if c = ',' then ' ' else c))

/-- The numeric check and conversion for one row (qpwrap.py lines 594-599):
every token must parse as a float, else `ValueError`. -/
def parseRow {Num : Type} (pf : List Char → Option Num) :
    List (List Char) → Except String (List Num)
  | [] => .ok []
  | v :: rest =>
    match pf v with
    | Option.none => .error "Non-numeric value found in matrix text"
    | some x => (parseRow pf rest).map (fun xs => x :: xs)

/-- The main loop of `text_to_matrix` over the lines, threading `ncols`
(`Option.none` models the initial `ncols = -1`). -/
def parseLines {Num : Type} (pf : List Char → Option Num) :
    Option Nat → List (List Char) → Except String (List (List Num))
  | _, [] => .ok []
  | ncols, line :: rest =>
    let vals := lineVals line
    if vals.isEmpty then parseLines pf ncols rest
    else
      match ncols with
      | some n =>
        if vals.length ≠ n then
          .error "File must contain a matrix of numbers with fixed size (rows/columns)"
        else do
          let row ← parseRow pf vals
          let rows ← parseLines pf (some n) rest
          pure (row :: rows)
      | Option.none => do
          let row ← parseRow pf vals
          let rows ← parseLines pf (some vals.length) rest
          pure (row :: rows)

/-- `text_to_matrix` (qpwrap.py lines 575-600). -/
def text_to_matrix {Num : Type} (pf : List Char → Option Num)
    (text : List Char) : Except String (List (List Num)) :=
  parseLines pf Option.none (pySplitlines text)

/-- A well-formed numeric token: non-empty, and free of whitespace, commas
and hash characters (true of `str(x)` for every float `x`). -/
def goodTok (t : List Char) : Prop :=
  t ≠ [] ∧ ∀ c ∈ t, ¬ pyWs c ∧ c ≠ ',' ∧ c ≠ '#'

instance : DecidablePred goodTok := fun t => by
  unfold goodTok; infer_instance

/-- The token rows of an input text that survive comment stripping and
blank-line skipping: the `vals` the parser checks for column consistency. -/
def nonblankVals (lines : List (List Char)) : List (List (List Char)) :=
  (lines.map lineVals).filter (fun v => v ≠ [])

/-! # Helper lemmas -/

theorem dget_dset_self (d : List (String × FabVal)) (k : String) (v : FabVal) :
    dget (dset d k v) k = some v := by
  induction d with
  | nil => simp [dset, dget]
  | cons kv rest ih =>
    obtain ⟨k1, v1⟩ := kv
    by_cases h : k1 = k
    · simp [dset, dget, h]
    · simp [dset, dget, h, ih]

theorem dget_dset_ne (d : List (String × FabVal)) (k k' : String) (v : FabVal)
    (h : k' ≠ k) : dget (dset d k v) k' = dget d k' := by
  induction d with
  | nil => simp [dset, dget, Ne.symm h]
  | cons kv rest ih =>
    obtain ⟨k1, v1⟩ := kv
    by_cases h1 : k1 = k
    · subst h1
      simp [dset, dget, Ne.symm h]
    · simp only [dset, if_neg h1, dget]
      by_cases h2 : k1 = k'
      · simp [h2]
      · simp [h2, ih]

theorem foldl_min_le_init (ts : List ℚ) (t : ℚ) : ts.foldl min t ≤ t := by
  induction ts generalizing t with
  | nil => exact le_refl t
  | cons a ts ih => exact le_trans (ih (min t a)) (min_le_left t a)

theorem foldl_min_le_mem (ts : List ℚ) (t x : ℚ) (hx : x ∈ ts) :
    ts.foldl min t ≤ x := by
  induction ts generalizing t with
  | nil => cases hx
  | cons a ts ih =>
    rcases List.mem_cons.mp hx with rfl | hx2
    · exact le_trans (foldl_min_le_init ts (min t x)) (min_le_right t x)
    · exact ih (min t a) hx2

theorem init_le_foldl_max (ts : List ℚ) (t : ℚ) : t ≤ ts.foldl max t := by
  induction ts generalizing t with
  | nil => exact le_refl t
  | cons a ts ih => exact le_trans (le_max_left t a) (ih (max t a))

theorem mem_le_foldl_max (ts : List ℚ) (t x : ℚ) (hx : x ∈ ts) :
    x ≤ ts.foldl max t := by
  induction ts generalizing t with
  | nil => cases hx
  | cons a ts ih =>
    rcases List.mem_cons.mp hx with rfl | hx2
    · exact le_trans (le_max_right t x) (init_le_foldl_max ts (max t x))
    · exact ih (max t a) hx2

theorem foldl_min_const (ts : List ℚ) (t : ℚ) (h : ∀ x ∈ ts, x = t) :
    ts.foldl min t = t := by
  induction ts with
  | nil => rfl
  | cons a ts ih =>
    have ha : a = t := h a (List.mem_cons_self a ts)
    subst ha
    simp only [List.foldl_cons, min_self]
    exact ih (fun x hx => h x (List.mem_cons_of_mem a hx))

theorem foldl_max_const (ts : List ℚ) (t : ℚ) (h : ∀ x ∈ ts, x = t) :
    ts.foldl max t = t := by
  induction ts with
  | nil => rfl
  | cons a ts ih =>
    have ha : a = t := h a (List.mem_cons_self a ts)
    subst ha
    simp only [List.foldl_cons, max_self]
    exact ih (fun x hx => h x (List.mem_cons_of_mem a hx))

/-- `min(taus) == max(taus)` holds exactly when all label durations are
numerically identical (for a non-empty list, as in the Python code). -/
theorem pyMin_eq_pyMax_iff (taus : List ℚ) (hne : taus ≠ []) :
    pyMin taus = pyMax taus ↔ ∀ x ∈ taus, x = taus.headD 0 := by
  rcases taus with _ | ⟨t, ts⟩
  · exact absurd rfl hne
  constructor
  · intro heq x hx
    have hminx : pyMin (t :: ts) ≤ x := by
      rcases List.mem_cons.mp hx with rfl | hx2
      · exact foldl_min_le_init ts x
      · exact foldl_min_le_mem ts t x hx2
    have hxmax : x ≤ pyMax (t :: ts) := by
      rcases List.mem_cons.mp hx with rfl | hx2
      · exact init_le_foldl_max ts x
      · exact mem_le_foldl_max ts t x hx2
    have hmint : pyMin (t :: ts) ≤ t := foldl_min_le_init ts t
    have htmax : t ≤ pyMax (t :: ts) := init_le_foldl_max ts t
    have hx_eq : x = pyMin (t :: ts) := le_antisymm (heq ▸ hxmax) hminx
    have ht_eq : t = pyMin (t :: ts) := le_antisymm (heq ▸ htmax) hmint
    simpa [List.headD] using hx_eq.trans ht_eq.symm
  · intro hall
    have ht : ∀ x ∈ ts, x = t := fun x hx =>
      (by simpa [List.headD] using hall x (List.mem_cons_of_mem t hx))
    show ts.foldl min t = ts.foldl max t
    rw [foldl_min_const ts t ht, foldl_max_const ts t ht]

/-! Helper lemmas for the matrix text functions (C7). -/

theorem splitP_of_all_not (p : Char → Bool) (l : List Char)
    (h : ∀ c ∈ l, ¬ p c) : splitP p l = [l] := by
  induction l with
  | nil => rfl
  | cons c cs ih =>
    have hc : ¬ p c := h c (List.mem_cons_self c cs)
    have ihs : splitP p cs = [cs] := ih (fun x hx => h x (List.mem_cons_of_mem c hx))
    simp [splitP, hc, ihs]

theorem splitP_append_sep (p : Char → Bool) (l1 l2 : List Char) (a : Char)
    (h1 : ∀ c ∈ l1, ¬ p c) (ha : p a) :
    splitP p (l1 ++ a :: l2) = l1 :: splitP p l2 := by
  induction l1 with
  | nil => simp [splitP, ha]
  | cons c cs ih =>
    have hc : ¬ p c := h1 c (List.mem_cons_self c cs)
    have ihs := ih (fun x hx => h1 x (List.mem_cons_of_mem c hx))
    simp [splitP, hc, ihs]

theorem splitP_joinSep (p : Char → Bool) (sep : Char) (rows : List (List Char))
    (hsep : p sep) (h : ∀ r ∈ rows, ∀ c ∈ r, ¬ p c) (hne : rows ≠ []) :
    splitP p (joinSep sep rows) = rows := by
  induction rows with
  | nil => exact absurd rfl hne
  | cons r rest ih =>
    rcases rest with _ | ⟨r2, rest2⟩
    · exact splitP_of_all_not p r (h r (List.mem_cons_self r []))
    · have hjoin : joinSep sep (r :: r2 :: rest2) =
          r ++ sep :: joinSep sep (r2 :: rest2) := rfl
      rw [hjoin, splitP_append_sep p r _ sep (h r (List.mem_cons_self r _)) hsep,
        ih (fun x hx => h x (List.mem_cons_of_mem r hx)) (by simp)]

theorem joinSep_ne_nil (sep : Char) (rows : List (List Char))
    (hne : rows ≠ []) (hr : ∀ r ∈ rows, r ≠ []) : joinSep sep rows ≠ [] := by
  rcases rows with _ | ⟨r, rest⟩
  · exact absurd rfl hne
  rcases rest with _ | ⟨r2, rest2⟩
  · exact hr r (List.mem_cons_self r [])
  · have : joinSep sep (r :: r2 :: rest2) = r ++ sep :: joinSep sep (r2 :: rest2) := rfl
    rw [this]
    simp

theorem mem_joinSep (sep : Char) (rows : List (List Char)) (c : Char)
    (hc : c ∈ joinSep sep rows) : c = sep ∨ ∃ r ∈ rows, c ∈ r := by
  induction rows with
  | nil => cases hc
  | cons r rest ih =>
    rcases rest with _ | ⟨r2, rest2⟩
    · exact Or.inr ⟨r, List.mem_cons_self r [], hc⟩
    · have hjoin : joinSep sep (r :: r2 :: rest2) =
          r ++ sep :: joinSep sep (r2 :: rest2) := rfl
      rw [hjoin] at hc
      rcases List.mem_append.mp hc with hin | hin
      · exact Or.inr ⟨r, List.mem_cons_self r _, hin⟩
      · rcases List.mem_cons.mp hin with rfl | hin2
        · exact Or.inl rfl
        · rcases ih hin2 with hsep | ⟨r3, hr3, hc3⟩
          · exact Or.inl hsep
          · exact Or.inr ⟨r3, List.mem_cons_of_mem r hr3, hc3⟩

theorem getLast?_joinSep (sep : Char) (rows : List (List Char))
    (hne : rows ≠ []) (hr : ∀ r ∈ rows, r ≠ []) :
    ∃ r ∈ rows, (joinSep sep rows).getLast? = r.getLast? := by
  induction rows with
  | nil => exact absurd rfl hne
  | cons r rest ih =>
    rcases rest with _ | ⟨r2, rest2⟩
    · exact ⟨r, List.mem_cons_self r [], rfl⟩
    · have hjoin : joinSep sep (r :: r2 :: rest2) =
          r ++ sep :: joinSep sep (r2 :: rest2) := rfl
      obtain ⟨r3, hr3, heq⟩ := ih (by simp)
        (fun x hx => hr x (List.mem_cons_of_mem r hx))
      refine ⟨r3, List.mem_cons_of_mem r hr3, ?_⟩
      rw [hjoin, List.getLast?_append_cons]
      rw [show (sep :: joinSep sep (r2 :: rest2)) =
        [sep] ++ joinSep sep (r2 :: rest2) from rfl]
      rw [List.getLast?_append_of_ne_nil [sep]
        (joinSep_ne_nil sep (r2 :: rest2) (by simp)
          (fun x hx => hr x (List.mem_cons_of_mem r hx))), heq]

theorem dropWhile_eq_self_of_head (p : Char → Bool) (l : List Char)
    (h : ∀ x ∈ l.head?, ¬ p x) : l.dropWhile p = l := by
  rcases l with _ | ⟨c, cs⟩
  · rfl
  · have hc : ¬ p c := h c rfl
    simp [List.dropWhile_cons, hc]

theorem pyStrip_eq_self (l : List Char)
    (hh : ∀ x ∈ l.head?, ¬ pyWs x) (hl : ∀ x ∈ l.getLast?, ¬ pyWs x) :
    pyStrip l = l := by
  unfold pyStrip
  rw [dropWhile_eq_self_of_head pyWs l hh]
  rw [dropWhile_eq_self_of_head pyWs l.reverse
    (by intro x hx; rw [List.head?_reverse] at hx; exact hl x hx)]
  exact List.reverse_reverse l

theorem map_noop {α : Type} (f : α → α) (l : List α)
    (h : ∀ a ∈ l, f a = a) : l.map f = l := by
  induction l with
  | nil => rfl
  | cons a as ih =>
    rw [List.map_cons, h a (List.mem_cons_self a as),
      ih (fun x hx => h x (List.mem_cons_of_mem a hx))]

theorem pyWords_joinSep (toks : List (List Char))
    (h : ∀ t ∈ toks, t ≠ [] ∧ ∀ c ∈ t, ¬ pyWs c) :
    pyWords (joinSep ' ' toks) = toks := by
  rcases htk : toks with _ | ⟨t, rest⟩
  · rfl
  · rw [← htk]
    unfold pyWords
    rw [splitP_joinSep pyWs ' ' toks rfl (fun r hr => (h r hr).2) (htk ▸ by simp)]
    exact List.filter_eq_self.mpr (fun t2 ht2 => by simpa using (h t2 ht2).1)

theorem head?_joinSep (sep : Char) (rows : List (List Char)) (hne : rows ≠ [])
    (hr : ∀ r ∈ rows, r ≠ []) :
    ∃ r ∈ rows, (joinSep sep rows).head? = r.head? := by
  rcases rows with _ | ⟨r, rest⟩
  · exact absurd rfl hne
  rcases rest with _ | ⟨r2, rest2⟩
  · exact ⟨r, by simp, rfl⟩
  · rcases r with _ | ⟨c, cs⟩
    · exact absurd rfl (hr [] (List.mem_cons_self [] _))
    · exact ⟨c :: cs, List.mem_cons_self _ _, rfl⟩

/-- One serialised matrix row parses back to exactly its tokens: comment
stripping, `strip()`, comma replacement and whitespace splitting are all
transparent for a space-joined list of good tokens. -/
theorem lineVals_joinSep (toks : List (List Char)) (hne : toks ≠ [])
    (h : ∀ t ∈ toks, goodTok t) :
    lineVals (joinSep ' ' toks) = toks := by
  have hchar : ∀ c ∈ joinSep ' ' toks, c = ' ' ∨ (¬ pyWs c ∧ c ≠ ',' ∧ c ≠ '#') := by
    intro c hc
    rcases mem_joinSep ' ' toks c hc with rfl | ⟨r, hrm, hcr⟩
    · exact Or.inl rfl
    · exact Or.inr ((h r hrm).2 c hcr)
  have hnn : ∀ t ∈ toks, t ≠ [] := fun t ht => (h t ht).1
  unfold lineVals
  rw [List.takeWhile_eq_self_iff.mpr ?hash]
  case hash =>
    intro c hcm
    rcases hchar c hcm with rfl | ⟨_, _, hch⟩
    · decide
    · simpa using hch
  obtain ⟨rh, hrh, hheq⟩ := head?_joinSep ' ' toks hne hnn
  obtain ⟨rl, hrl, hleq⟩ := getLast?_joinSep ' ' toks hne hnn
  rw [pyStrip_eq_self _ ?hd ?lst]
  case hd =>
    intro x hx
    rw [hheq] at hx
    exact ((h rh hrh).2 x (List.mem_of_mem_head? hx)).1
  case lst =>
    intro x hx
    rw [hleq] at hx
    exact ((h rl hrl).2 x (List.mem_of_mem_getLast? hx)).1
  rw [map_noop _ _ ?comma]
  case comma =>
    intro a ham
    rcases hchar a ham with rfl | ⟨_, hac, _⟩
    · decide
    · simp [hac]
  exact pyWords_joinSep toks (fun t ht => ⟨(h t ht).1, fun c hc => ((h t ht).2 c hc).1⟩)

theorem parseRow_map {Num : Type} (pf : List Char → Option Num)
    (numStr : Num → List Char) (row : List Num)
    (h : ∀ v ∈ row, pf (numStr v) = some v) :
    parseRow pf (row.map numStr) = .ok row := by
  induction row with
  | nil => rfl
  | cons v vs ih =>
    rw [List.map_cons]
    unfold parseRow
    rw [h v (List.mem_cons_self v vs),
      ih (fun x hx => h x (List.mem_cons_of_mem v hx))]
    rfl

theorem parseRow_isSome {Num : Type} (pf : List Char → Option Num)
    (vals : List (List Char)) (row : List Num)
    (h : parseRow pf vals = .ok row) : ∀ v ∈ vals, (pf v).isSome := by
  induction vals generalizing row with
  | nil => intro v hv; cases hv
  | cons v vs ih =>
    intro w hw
    unfold parseRow at h
    rcases hv : pf v with _ | x
    · rw [hv] at h
      exact Except.noConfusion h
    · rw [hv] at h
      rcases List.mem_cons.mp hw with rfl | hw2
      · simp [hv]
      · rcases hrec : parseRow pf vs with e | r2
        · rw [hrec] at h
          simp [Except.map] at h
        · exact ih r2 hrec w hw2

theorem parseLines_roundtrip {Num : Type} (pf : List Char → Option Num)
    (numStr : Num → List Char) (m : List (List Num)) (n : Nat) (hn : 0 < n)
    (hrow : ∀ row ∈ m, row.length = n)
    (hgood : ∀ row ∈ m, ∀ v ∈ row, pf (numStr v) = some v ∧ goodTok (numStr v)) :
    parseLines pf (some n) (m.map (fun row => joinSep ' ' (row.map numStr))) = .ok m
    ∧ parseLines pf Option.none (m.map (fun row => joinSep ' ' (row.map numStr))) = .ok m := by
  induction m with
  | nil => exact ⟨rfl, rfl⟩
  | cons row rest ih =>
    obtain ⟨ih1, _⟩ := ih (fun r hr => hrow r (List.mem_cons_of_mem _ hr))
      (fun r hr => hgood r (List.mem_cons_of_mem _ hr))
    have hrne : row ≠ [] := by
      intro hr0
      have hlr := hrow row (List.mem_cons_self row rest)
      rw [hr0] at hlr
      simp at hlr
      omega
    have htoksne : row.map numStr ≠ [] := by simpa using hrne
    have htoksgood : ∀ t ∈ row.map numStr, goodTok t := by
      intro t ht
      rcases List.mem_map.mp ht with ⟨v, hv, rfl⟩
      exact (hgood row (List.mem_cons_self row rest) v hv).2
    have hlv : lineVals (joinSep ' ' (row.map numStr)) = row.map numStr :=
      lineVals_joinSep _ htoksne htoksgood
    have hpr : parseRow pf (row.map numStr) = .ok row :=
      parseRow_map pf numStr row
        (fun v hv => (hgood row (List.mem_cons_self row rest) v hv).1)
    have hlen : (row.map numStr).length = n := by
      simpa using hrow row (List.mem_cons_self row rest)
    constructor
    · simp only [List.map_cons, parseLines, hlv]
      rw [if_neg (by simp [htoksne]), if_neg (by simp [hlen])]
      rw [hpr, ih1]
      rfl
    · simp only [List.map_cons, parseLines, hlv]
      rw [if_neg (by simp [htoksne])]
      rw [hpr, hlen, ih1]
      rfl

theorem parseLines_some_sound {Num : Type} (pf : List Char → Option Num)
    (n : Nat) (lines : List (List Char)) (res : List (List Num))
    (h : parseLines pf (some n) lines = .ok res) :
    ∀ r ∈ nonblankVals lines, r.length = n ∧ ∀ v ∈ r, (pf v).isSome := by
  induction lines generalizing res with
  | nil =>
    intro r hr
    simp [nonblankVals] at hr
  | cons line rest ih =>
    simp only [parseLines] at h
    rcases hvl : lineVals line with _ | ⟨v0, vr⟩
    · rw [hvl] at h
      simp only [List.isEmpty_nil, if_true] at h
      have hnb : nonblankVals (line :: rest) = nonblankVals rest := by
        simp [nonblankVals, hvl]
      rw [hnb]
      exact ih res h
    · rw [hvl] at h
      simp only [List.isEmpty_cons, if_false, Bool.false_eq_true] at h
      by_cases hl : (v0 :: vr).length = n
      · rw [if_neg (by omega)] at h
        rcases hpr : parseRow pf (v0 :: vr) with e | prow
        · rw [hpr] at h
          exact Except.noConfusion h
        · rw [hpr] at h
          rcases hrec : parseLines pf (some n) rest with e2 | rs
          · rw [hrec] at h
            exact Except.noConfusion h
          · have hnb : nonblankVals (line :: rest) =
                (v0 :: vr) :: nonblankVals rest := by
              simp [nonblankVals, hvl]
            rw [hnb]
            intro r hr
            rcases List.mem_cons.mp hr with rfl | hr2
            · exact ⟨hl, parseRow_isSome pf _ prow hpr⟩
            · exact ih rs hrec r hr2
      · rw [if_pos (by omega)] at h
        exact Except.noConfusion h

theorem parseLines_none_sound {Num : Type} (pf : List Char → Option Num)
    (lines : List (List Char)) (res : List (List Num))
    (h : parseLines pf Option.none lines = .ok res) :
    ∀ r ∈ nonblankVals lines,
      (∀ s ∈ nonblankVals lines, r.length = s.length)
      ∧ ∀ v ∈ r, (pf v).isSome := by
  induction lines generalizing res with
  | nil =>
    intro r hr
    simp [nonblankVals] at hr
  | cons line rest ih =>
    simp only [parseLines] at h
    rcases hvl : lineVals line with _ | ⟨v0, vr⟩
    · rw [hvl] at h
      simp only [List.isEmpty_nil, if_true] at h
      have hnb : nonblankVals (line :: rest) = nonblankVals rest := by
        simp [nonblankVals, hvl]
      rw [hnb]
      exact ih res h
    · rw [hvl] at h
      simp only [List.isEmpty_cons, if_false, Bool.false_eq_true] at h
      rcases hpr : parseRow pf (v0 :: vr) with e | prow
      · rw [hpr] at h
        exact Except.noConfusion h
      · rw [hpr] at h
        rcases hrec : parseLines pf (some (v0 :: vr).length) rest with e2 | rs
        · rw [hrec] at h
          exact Except.noConfusion h
        · have hsound := parseLines_some_sound pf (v0 :: vr).length rest rs hrec
          have hnb : nonblankVals (line :: rest) =
              (v0 :: vr) :: nonblankVals rest := by
            simp [nonblankVals, hvl]
          rw [hnb]
          intro r hr
          rcases List.mem_cons.mp hr with rfl | hr2
          · refine ⟨?_, parseRow_isSome pf _ prow hpr⟩
            intro s hs
            rcases List.mem_cons.mp hs with rfl | hs2
            · rfl
            · exact ((hsound s hs2).1).symm
          · refine ⟨?_, (hsound r hr2).2⟩
            intro s hs
            rcases List.mem_cons.mp hs with rfl | hs2
            · exact (hsound r hr2).1
            · exact ((hsound r hr2).1).trans ((hsound s hs2).1).symm

/-- For a matrix of good rows the serialised text splits back into exactly
the serialised row strings. -/
theorem pySplitlines_matrix {Num : Type} (numStr : Num → List Char)
    (m : List (List Num)) (hm : m ≠ [])
    (hrne : ∀ row ∈ m, row ≠ [])
    (hgood : ∀ row ∈ m, ∀ v ∈ row, goodTok (numStr v)) :
    pySplitlines (matrix_to_text numStr m) =
      m.map (fun row => joinSep ' ' (row.map numStr)) := by
  have htokne : ∀ row ∈ m, ∀ t ∈ row.map numStr, t ≠ [] := by
    intro row hrm t ht
    rcases List.mem_map.mp ht with ⟨v, hv, rfl⟩
    exact (hgood row hrm v hv).1
  have hrowsne : m.map (fun row => joinSep ' ' (row.map numStr)) ≠ [] := by
    simpa using hm
  have hrows_nonnil : ∀ rs ∈ m.map (fun row => joinSep ' ' (row.map numStr)),
      rs ≠ [] := by
    intro rs hrs
    rcases List.mem_map.mp hrs with ⟨row, hrm, rfl⟩
    exact joinSep_ne_nil ' ' (row.map numStr) (by simpa using hrne row hrm)
      (htokne row hrm)
  have hnolf : ∀ rs ∈ m.map (fun row => joinSep ' ' (row.map numStr)),
      ∀ c ∈ rs, ¬ ((fun c => decide (c = '\n')) c = true) := by
    intro rs hrs c hc
    rcases List.mem_map.mp hrs with ⟨row, hrm, rfl⟩
    rcases mem_joinSep ' ' (row.map numStr) c hc with rfl | ⟨t, htm, hct⟩
    · decide
    · rcases List.mem_map.mp htm with ⟨v, hv, rfl⟩
      have hnws := ((hgood row hrm v hv).2 c hct).1
      simp only [decide_eq_true_eq]
      intro hlf
      rw [hlf] at hnws
      exact hnws rfl
  have htext_ne : matrix_to_text numStr m ≠ [] := by
    unfold matrix_to_text
    exact joinSep_ne_nil '\n' _ hrowsne hrows_nonnil
  have hsplit : splitP (fun c => c = '\n') (matrix_to_text numStr m) =
      m.map (fun row => joinSep ' ' (row.map numStr)) := by
    unfold matrix_to_text
    exact splitP_joinSep _ '\n' _ (by decide) hnolf hrowsne
  have hlast : (m.map (fun row => joinSep ' ' (row.map numStr))).getLast? ≠
      some [] := by
    intro hcontra
    exact hrows_nonnil _ (List.mem_of_mem_getLast? hcontra) rfl
  unfold pySplitlines
  rw [if_neg (by simp [htext_ne])]
  simp only [hsplit]
  rw [if_neg hlast]

/-- C7: serialising a matrix with `matrix_to_text` and re-parsing it with
`text_to_matrix` recovers the matrix exactly (the floating-point-tolerance
side is the hypothesis `pf (numStr v) = some v`, CPython's
`float(str(x)) == x`); and every input whose non-blank, non-comment rows
have unequal column counts or contain a non-parsable token makes
`text_to_matrix` return a parse error, never a silently coerced value. -/
theorem c7_matrix_text_roundtrip {Num : Type} (pf : List Char → Option Num)
    (numStr : Num → List Char) (m : List (List Num)) (n : Nat)
    (text : List Char) :
    (0 < n → (∀ row ∈ m, row.length = n) →
      (∀ row ∈ m, ∀ v ∈ row, pf (numStr v) = some v ∧ goodTok (numStr v)) →
      text_to_matrix pf (matrix_to_text numStr m) = .ok m)
    ∧ ((∃ r ∈ nonblankVals (pySplitlines text),
          ∃ s ∈ nonblankVals (pySplitlines text), r.length ≠ s.length)
        ∨ (∃ r ∈ nonblankVals (pySplitlines text),
            ∃ v ∈ r, pf v = Option.none) →
      ∃ msg, text_to_matrix pf text = .error msg) := by
  constructor
  · intro hn hrow hgood
    rcases hme : m with _ | ⟨row0, mrest⟩
    · rfl
    rw [← hme]
    have hm : m ≠ [] := by rw [hme]; simp
    have hrne : ∀ row ∈ m, row ≠ [] := by
      intro row hrm hempty
      have := hrow row hrm
      rw [hempty] at this
      simp at this
      omega
    unfold text_to_matrix
    rw [pySplitlines_matrix numStr m hm hrne
      (fun row hrm v hv => (hgood row hrm v hv).2)]
    exact (parseLines_roundtrip pf numStr m n hn hrow hgood).2
  · intro hbad
    rcases hres : text_to_matrix pf text with msg | res
    · exact ⟨msg, rfl⟩
    · exfalso
      unfold text_to_matrix at hres
      have hsound := parseLines_none_sound pf (pySplitlines text) res hres
      rcases hbad with ⟨r, hr, s, hs, hne⟩ | ⟨r, hr, v, hv, hnone⟩
      · exact hne ((hsound r hr).1 s hs)
      · have hvs := (hsound r hr).2 v hv
        rw [hnone] at hvs
        exact Bool.noConfusion hvs

/-- C7 witness: a concrete 2x2 matrix round-trips exactly, and the ragged
input `"1 2\n3"` is rejected with a parse error (tokens are modelled by the
identity numeral codec, a legitimate instance of the abstract
`str`/`float` pair). -/
theorem c7_matrix_text_roundtrip_witness :
    ((0 : Nat) < 2
      ∧ (∀ row ∈ [[['1'], ['2']], [['3'], ['4']]], row.length = 2)
      ∧ (∀ row ∈ [[['1'], ['2']], [['3'], ['4']]], ∀ v ∈ row,
          (fun l : List Char => if l = [] then Option.none else some l)
              ((fun l : List Char => l) v) = some v
            ∧ goodTok ((fun l : List Char => l) v))
      ∧ (∃ r ∈ nonblankVals (pySplitlines ['1', ' ', '2', '\n', '3']),
          ∃ s ∈ nonblankVals (pySplitlines ['1', ' ', '2', '\n', '3']),
            r.length ≠ s.length))
    ∧ text_to_matrix (fun l : List Char => if l = [] then Option.none else some l)
        (matrix_to_text (fun l : List Char => l) [[['1'], ['2']], [['3'], ['4']]]) =
          .ok [[['1'], ['2']], [['3'], ['4']]]
    ∧ (∃ msg,
        text_to_matrix (fun l : List Char => if l = [] then Option.none else some l)
          ['1', ' ', '2', '\n', '3'] = .error msg) := by
  refine ⟨⟨by decide, by decide, by decide, by decide⟩, ?_, ?_⟩
  · exact (c7_matrix_text_roundtrip
      (fun l : List Char => if l = [] then Option.none else some l)
      (fun l : List Char => l) [[['1'], ['2']], [['3'], ['4']]] 2
      ['1', ' ', '2', '\n', '3']).1 (by decide) (by decide) (by decide)
  · exact (c7_matrix_text_roundtrip
      (fun l : List Char => if l = [] then Option.none else some l)
      (fun l : List Char => l) [[['1'], ['2']], [['3'], ['4']]] 2
      ['1', ' ', '2', '\n', '3']).2 (Or.inl (by decide))

/-- C1: `Workspace.run` output capture.  With a non-empty `expected` list the
returned files are exactly the post-run files whose name matches at least one
pattern (regardless of modification times); with `expected` empty they are
exactly the post-run files that are new or whose modification time strictly
increased relative to the pre-run snapshot. -/
theorem c1_run_output_capture (rmatch : String → String → Bool)
    (pre post : List (String × ℚ)) (expected : List String) (f : String) :
    (expected ≠ [] →
      (f ∈ get_return_files rmatch pre post expected ↔
        f ∈ post.map Prod.fst ∧ ∃ e ∈ expected, rmatch e f = true))
    ∧ (expected = [] →
      (f ∈ get_return_files rmatch pre post expected ↔
        ∃ t : ℚ, (f, t) ∈ post ∧
          (flookup pre f = Option.none ∨
            ∃ t0 : ℚ, flookup pre f = some t0 ∧ t0 < t))) := by
  constructor
  · intro hne
    rw [get_return_files, if_neg (by simpa using hne)]
    simp only [List.mem_flatMap, List.mem_map, List.mem_filter]
    constructor
    · rintro ⟨g, ⟨⟨p, hp, rfl⟩, e, ⟨he, hm⟩, rfl⟩⟩
      exact ⟨⟨p, hp, rfl⟩, e, he, hm⟩
    · rintro ⟨⟨p, hp, rfl⟩, e, he, hm⟩
      exact ⟨p.1, ⟨⟨p, hp, rfl⟩, e, ⟨he, hm⟩, rfl⟩⟩
  · rintro rfl
    rw [show get_return_files rmatch pre post [] = changed_files pre post from rfl]
    simp only [changed_files, List.mem_map, List.mem_filter]
    constructor
    · rintro ⟨⟨g, t⟩, ⟨hp, hc⟩, rfl⟩
      refine ⟨t, hp, ?_⟩
      rcases hfl : flookup pre g with _ | t0
      · exact Or.inl rfl
      · refine Or.inr ⟨t0, rfl, ?_⟩
        simpa [hfl] using hc
    · rintro ⟨t, hp, hc⟩
      refine ⟨(f, t), ⟨hp, ?_⟩, rfl⟩
      rcases hc with hnone | ⟨t0, hsome, hlt⟩
      · simp [hnone]
      · simp [hsome, hlt]

/-- C1 witness: the concrete scenario from the claim — pre-run `{a: 0}`,
post-run `{a: 0, b: 1}`.  Without a filter only `b` is returned; with a
pattern matching exactly `a`, only `a` is returned. -/
theorem c1_run_output_capture_witness :
    (([("a", "a")] : List (String × String)) ≠ [] ∧
      ("b" ∈ get_return_files (fun e f => e == f) [("a", 0)] [("a", 0), ("b", 1)] [] ↔
        ∃ t : ℚ, ("b", t) ∈ [(("a" : String), (0 : ℚ)), ("b", 1)] ∧
          (flookup [("a", 0)] "b" = Option.none ∨
            ∃ t0 : ℚ, flookup [("a", 0)] "b" = some t0 ∧ t0 < t))) ∧
    get_return_files (fun e f => e == f) [("a", 0)] [("a", 0), ("b", 1)] [] = ["b"] ∧
    get_return_files (fun e f => e == f) [("a", 0)] [("a", 0), ("b", 1)] ["a"] = ["a"] := by
  refine ⟨⟨by decide, (c1_run_output_capture (fun e f => e == f)
    [("a", 0)] [("a", 0), ("b", 1)] [] "b").2 rfl⟩, by decide, by decide⟩

/-- C2 counterexample: the integer value `1` is non-empty, non-`False` and
not the boolean `True`, so by the claim it should render as `--key=1`; the
code renders it as a bare `--key` flag because CPython's `v == True` holds
for the integer 1. -/
theorem c2_option_serialisation_counterexample :
    fabberOptionArgs [("a", PyVal.int 1)] = " --a" ∧
    (" --a" : String) ≠ " --a=1" := by
  constructor
  · rfl
  · decide

/-- C2 (amended): values comparing equal to `True` or `""` under Python
equality — `True`, `""`, and also the integer `1` — render as a bare
`--key` flag; any other truthy value renders as `--key=value`; falsy values
(`False`, `None`, the integer `0`) produce no flag. -/
theorem c2_option_serialisation (k : String) :
    fabberOptionArgs [(k, PyVal.bool true)] = " --" ++ k
    ∧ fabberOptionArgs [(k, PyVal.str "")] = " --" ++ k
    ∧ fabberOptionArgs [(k, PyVal.int 1)] = " --" ++ k
    ∧ (∀ s : String, s ≠ "" →
        fabberOptionArgs [(k, PyVal.str s)] = " --" ++ k ++ "=" ++ s)
    ∧ (∀ n : Int, n ≠ 0 → n ≠ 1 →
        fabberOptionArgs [(k, PyVal.int n)] = " --" ++ k ++ "=" ++ toString n)
    ∧ fabberOptionArgs [(k, PyVal.bool false)] = ""
    ∧ fabberOptionArgs [(k, PyVal.none)] = ""
    ∧ fabberOptionArgs [(k, PyVal.int 0)] = ""
    ∧ (∀ (opts : List (String × PyVal)) (kv : String × PyVal),
        fabberOptionArgs (opts ++ [kv]) =
          fabberOptionArgs opts ++ fabberOptionArg kv.1 kv.2) := by
  refine ⟨rfl, rfl, rfl, ?_, ?_, rfl, rfl, rfl, ?_⟩
  · intro s hs
    simp [fabberOptionArgs, fabberOptionArg, PyVal.eqEmptyStr, PyVal.eqTrue,
      PyVal.truthy, PyVal.pystr, hs]
  · intro n h0 h1
    simp [fabberOptionArgs, fabberOptionArg, PyVal.eqEmptyStr, PyVal.eqTrue,
      PyVal.truthy, PyVal.pystr, h0, h1]
  · intro opts kv
    simp [fabberOptionArgs, List.foldl_append]

/-- C2 witness: concrete instances of the amended rendering rules. -/
theorem c2_option_serialisation_witness :
    (("x" : String) ≠ "" ∧ ((7 : Int) ≠ 0 ∧ (7 : Int) ≠ 1)) ∧
    fabberOptionArgs [("k", PyVal.str "x")] = " --k=x" ∧
    fabberOptionArgs [("k", PyVal.int 7)] = " --k=7" := by
  refine ⟨⟨by decide, by decide, by decide⟩, ?_, ?_⟩
  · exact (c2_option_serialisation "k").2.2.2.1 "x" (by decide)
  · exact (c2_option_serialisation "k").2.2.2.2.1 7 (by decide) (by decide)

/-- C8: extension inference tries `""`, `".nii"`, `".nii.gz"` in ranked
order against the base path and picks the first candidate for which a file
exists; with both `name.nii` and `name.nii.gz` present (and no bare file)
the ranked-first member `.nii` is chosen; with no candidate present the
default compressed extension `.nii.gz` is kept. -/
theorem c8_extension_inference (fsExists : String → Bool)
    (ipath prevExt : String) :
    (guess_extension fsExists ipath prevExt =
      if fsExists (ipath ++ "") then ""
      else if fsExists (ipath ++ ".nii") then ".nii"
      else if fsExists (ipath ++ ".nii.gz") then ".nii.gz"
      else prevExt)
    ∧ (fsExists (ipath ++ "") = false → fsExists (ipath ++ ".nii") = true →
        fsExists (ipath ++ ".nii.gz") = true →
        guess_extension fsExists ipath prevExt = ".nii")
    ∧ ((∀ ext ∈ guessExts, fsExists (ipath ++ ext) = false) →
        guess_extension fsExists ipath defaultImageExt = ".nii.gz") := by
  refine ⟨?_, ?_, ?_⟩
  · unfold guess_extension ext_matches guessExts
    rcases h0 : fsExists ipath <;>
      rcases h1 : fsExists (ipath ++ ".nii") <;>
        rcases h2 : fsExists (ipath ++ ".nii.gz") <;>
          simp [List.filter_cons, h0, h1, h2]
  · intro h0 h1 h2
    simp only [String.append_empty] at h0
    unfold guess_extension ext_matches guessExts
    simp [List.filter_cons, h0, h1, h2]
  · intro hall
    unfold guess_extension ext_matches
    have h0 := hall "" (by simp [guessExts])
    have h1 := hall ".nii" (by simp [guessExts])
    have h2 := hall ".nii.gz" (by simp [guessExts])
    simp only [String.append_empty] at h0
    unfold guessExts
    simp [List.filter_cons, h0, h1, h2, defaultImageExt]

/-- C8 witness: a concrete filesystem with `name.nii` and `name.nii.gz`
both present picks `.nii`; an empty filesystem yields the `.nii.gz`
default. -/
theorem c8_extension_inference_witness :
    (((fun p => p == "name.nii" || p == "name.nii.gz") ("name" ++ "") = false)
      ∧ ((fun p => p == "name.nii" || p == "name.nii.gz") ("name" ++ ".nii") = true)
      ∧ ((fun p => p == "name.nii" || p == "name.nii.gz") ("name" ++ ".nii.gz") = true)
      ∧ (∀ ext ∈ guessExts, (fun _ => false) (("name" : String) ++ ext) = false))
    ∧ guess_extension (fun p => p == "name.nii" || p == "name.nii.gz")
        "name" ".nii.gz" = ".nii"
    ∧ guess_extension (fun _ => false) "name" defaultImageExt = ".nii.gz" := by
  refine ⟨⟨by decide, by decide, by decide, fun ext _ => rfl⟩, ?_, ?_⟩
  · exact (c8_extension_inference (fun p => p == "name.nii" || p == "name.nii.gz")
      "name" ".nii.gz").2.1 (by decide) (by decide) (by decide)
  · exact (c8_extension_inference (fun _ => false) "name"
      defaultImageExt).2.2 (fun ext _ => rfl)

/-- C9 (code bug in `flirt`): `bet` unwraps a single resulting image to the
bare image, but `flirt` with no transformation-matrix outputs returns the
one-element *list* `ret` instead of `ret[0]` — contradicting its own
docstring (":return Registered image") and the parallel `bet` code path.
Multiple results are returned as a tuple by both. -/
theorem c9_single_result_unwrapping :
    bet_unwrap ["brain_bet"] = PyRet.single "brain_bet"
    ∧ flirt_unwrap ["img_reg"] = PyRet.list ["img_reg"]
    ∧ flirt_unwrap ["img_reg"] ≠ PyRet.single "img_reg"
    ∧ bet_unwrap ["brain_bet", "brain_bet_mask"] =
        PyRet.tuple ["brain_bet", "brain_bet_mask"]
    ∧ flirt_unwrap ["img_reg", "mat"] = PyRet.tuple ["img_reg", "mat"] := by
  refine ⟨rfl, rfl, by decide, rfl, rfl⟩

/-- C10: `Workspace.run` restores the process working directory on every
path — launch failure, non-zero exit status, output-recovery failure and
normal return all flow through the `finally: os.chdir(cwd)` clause, so the
post-call `cwd` equals the pre-call `cwd`. -/
theorem c10_cwd_restored (workdir : String) (env : RunEnv)
    (expected : List String) (s : CwdState) :
    ((run_with_cwd workdir env expected s).2).cwd = s.cwd := rfl

/-- C4: terminal states are sticky.  Once the pipeline status is anything
other than `RUNNING`, a late step-completion callback and a late progress
callback leave the whole state (status, log, step counter, trace) unchanged
and emit no signal; consequently progress signals are only emitted while
the status is `RUNNING`. -/
theorem c4_terminal_states_sticky (s : BState) (st : PStatus) (lg : String)
    (complete : ℚ) (h : s.status ≠ PStatus.running) :
    fabberFinished s st lg = s ∧ fabberProgress s complete = s := by
  constructor
  · unfold fabberFinished
    simp [h]
  · unfold fabberProgress
    simp [h]

/-- C4 witness: a failed pipeline ignores a late success callback and a
late progress callback. -/
theorem c4_terminal_states_sticky_witness :
    (PStatus.failed ≠ PStatus.running) ∧
    (fabberFinished ⟨PStatus.failed, "log", 1, [], [], []⟩
        PStatus.succeeded "late" = ⟨PStatus.failed, "log", 1, [], [], []⟩ ∧
      fabberProgress ⟨PStatus.failed, "log", 1, [], [], []⟩ (1 / 2) =
        ⟨PStatus.failed, "log", 1, [], [], []⟩) :=
  ⟨by decide, c4_terminal_states_sticky ⟨PStatus.failed, "log", 1, [], [], []⟩
    PStatus.succeeded "late" (1 / 2) (by decide)⟩

/-- C3: every dispatch goes to `fabber.execute` with the option set built by
`startFabberOptions`, whose final flag is `step_num == len(steps)`; a
non-final option set always contains `save-mvn` and contains no persisted
summary output unless the step's own options already had one (they come from
`basil.get_steps`, which requests none); the final option set contains
`save-mean`, `save-std` and `save-model-fit`; and when the last step has
completed, `finalMVN` is removed from the data store (when present) before
the terminal `sig_finished` is emitted. -/
theorem c3_step_option_discipline (s : BState)
    (hrun : s.status = PStatus.running) :
    (∀ (h : s.stepNum < s.steps.length),
       (nextStep s).events = s.events ++
         [BEvent.sigStep (s.steps.get ⟨s.stepNum, h⟩).desc,
          BEvent.fabberExec (startFabberOptions (s.steps.get ⟨s.stepNum, h⟩)
            (decide (s.stepNum + 1 = s.steps.length)))])
    ∧ (∀ st : Step,
        dget (startFabberOptions st false) "save-mvn" = some (FabVal.s "")
        ∧ (dget st.options "save-mean" = Option.none →
            dget (startFabberOptions st false) "save-mean" = Option.none)
        ∧ (dget st.options "save-std" = Option.none →
            dget (startFabberOptions st false) "save-std" = Option.none)
        ∧ (dget st.options "save-model-fit" = Option.none →
            dget (startFabberOptions st false) "save-model-fit" = Option.none)
        ∧ dget (startFabberOptions st true) "save-mean" = some (FabVal.s "")
        ∧ dget (startFabberOptions st true) "save-std" = some (FabVal.s "")
        ∧ dget (startFabberOptions st true) "save-model-fit" = some (FabVal.s ""))
    ∧ (s.steps.length ≤ s.stepNum →
        (nextStep s).status = PStatus.succeeded
        ∧ "finalMVN" ∉ (nextStep s).ivmData
        ∧ (nextStep s).events = s.events ++
            (if "finalMVN" ∈ s.ivmData
             then [BEvent.deleteData "finalMVN",
                   BEvent.sigFinished PStatus.succeeded]
             else [BEvent.sigFinished PStatus.succeeded])) := by
  refine ⟨?_, ?_, ?_⟩
  · intro h
    rw [nextStep]
    rw [if_neg (by simp [hrun]), dif_pos h]
    simp [startFabber]
  · intro st
    refine ⟨?_, ?_, ?_, ?_, ?_, ?_, ?_⟩ <;>
      rcases hp : st.prevStep with _ | p <;>
        simp [startFabberOptions, hp, dget_dset_self, dget_dset_ne]
  · intro hge
    rw [nextStep]
    rw [if_neg (by simp [hrun]), dif_neg (by omega)]
    by_cases hmem : "finalMVN" ∈ s.ivmData <;>
      simp [hmem, List.mem_filter]

/-- C3 witness: a one-step pipeline in the running state; the dispatched
final option set persists the summary outputs, and a non-final option set
requests the continuation artifact. -/
theorem c3_step_option_discipline_witness :
    ((⟨PStatus.running, "", 0, [⟨1, "STEP 1", "d", "m", [], Option.none⟩],
        ["finalMVN"], []⟩ : BState).status = PStatus.running)
    ∧ dget (startFabberOptions ⟨1, "STEP 1", "d", "m", [], Option.none⟩ true)
        "save-mean" = some (FabVal.s "")
    ∧ dget (startFabberOptions ⟨1, "STEP 1", "d", "m", [], Option.none⟩ false)
        "save-mvn" = some (FabVal.s "") := by
  refine ⟨rfl, ?_, ?_⟩
  · exact ((c3_step_option_discipline
      ⟨PStatus.running, "", 0, [⟨1, "STEP 1", "d", "m", [], Option.none⟩],
        ["finalMVN"], []⟩ rfl).2.1
      ⟨1, "STEP 1", "d", "m", [], Option.none⟩).2.2.2.2.1
  · exact ((c3_step_option_discipline
      ⟨PStatus.running, "", 0, [⟨1, "STEP 1", "d", "m", [], Option.none⟩],
        ["finalMVN"], []⟩ rfl).2.1
      ⟨1, "STEP 1", "d", "m", [], Option.none⟩).1

/-- C5: with continuous labelling (`casl`), identical label durations are
emitted as a single shared `tau` option (`str(taus[0])`) and nothing else,
differing durations as individually indexed `tau<i+1>` options; every
emitted `ti<i+1>` equals the delay plus the label duration under `casl` and
the raw delay otherwise. -/
theorem c5_tau_ti_derivation (pystr : ℚ → String) (casl : Bool)
    (taus tis : List ℚ) (hne : taus ≠ []) (hlen : tis.length ≤ taus.length) :
    (casl = true → (∀ x ∈ taus, x = taus.headD 0) →
      ("tau", pystr (taus.headD 0)) ∈ basilTimingOptions pystr casl taus tis
      ∧ basilTimingOptions pystr casl taus tis =
          ("casl", "") :: ("tau", pystr (taus.headD 0)) ::
            tis.enum.map (fun it =>
              ("ti" ++ toString (it.1 + 1), pystr (it.2 + taus.getD it.1 0))))
    ∧ (casl = true → ¬ (∀ x ∈ taus, x = taus.headD 0) →
      ∀ (i : Nat) (hi : i < taus.length),
        ("tau" ++ toString (i + 1), pystr taus[i]) ∈
          basilTimingOptions pystr casl taus tis)
    ∧ (∀ (i : Nat) (hi : i < tis.length),
        ("ti" ++ toString (i + 1),
          pystr (if casl then tis[i] + taus.getD i 0 else tis[i])) ∈
          basilTimingOptions pystr casl taus tis) := by
  refine ⟨?_, ?_, ?_⟩
  · rintro rfl hall
    have hcond : pyMin taus = pyMax taus :=
      (pyMin_eq_pyMax_iff taus hne).mpr hall
    constructor
    · simp [basilTimingOptions, hcond]
    · simp [basilTimingOptions, hcond]
  · rintro rfl hnall i hi
    have hcond : ¬ pyMin taus = pyMax taus := fun h =>
      hnall ((pyMin_eq_pyMax_iff taus hne).mp h)
    have hmem : (i, taus[i]) ∈ taus.enum :=
      List.mk_mem_enum_iff_getElem?.mpr (List.getElem?_eq_getElem hi)
    simp only [basilTimingOptions, if_neg hcond, if_true, List.mem_append,
      List.mem_cons]
    exact Or.inl (Or.inr (List.mem_map.mpr ⟨(i, taus[i]), hmem, rfl⟩))
  · intro i hi
    have hmem : (i, tis[i]) ∈ tis.enum :=
      List.mk_mem_enum_iff_getElem?.mpr (List.getElem?_eq_getElem hi)
    unfold basilTimingOptions
    exact List.mem_append_right _ (List.mem_map.mpr ⟨(i, tis[i]), hmem, rfl⟩)

/-- C5 witness: a continuous-labelling acquisition with equal label
durations `[1.4, 1.4]` emits the single shared `tau` flag. -/
theorem c5_tau_ti_derivation_witness :
    (([(2 : ℚ), 2] : List ℚ) ≠ []
      ∧ ([(3 : ℚ)] : List ℚ).length ≤ ([(2 : ℚ), 2] : List ℚ).length
      ∧ (∀ x ∈ ([(2 : ℚ), 2] : List ℚ), x = ([(2 : ℚ), 2] : List ℚ).headD 0))
    ∧ ("tau", "v") ∈
        basilTimingOptions (fun _ => "v") true [(2 : ℚ), 2] [(3 : ℚ)] := by
  refine ⟨⟨by simp, by simp, by simp⟩, ?_⟩
  exact ((c5_tau_ti_derivation (fun _ => "v") true [(2 : ℚ), 2] [(3 : ℚ)]
    (by simp) (by simp)).1 rfl (by simp)).1

/-- C6 counterexample: a successful `run` returns the Python pair
`imgs, text` — a 2-tuple.  The claimed triple `(produced_images,
produced_text_files, exit_status)` does not exist: at a concrete successful
invocation the returned tuple has two components, not three, and no
component carries the exit status. -/
theorem c6_run_return_counterexample :
    run_result ⟨false, 0, [], [("out.nii", 1)], fun _ _ => false,
        fun _ => FileKind.image⟩ [] =
      .ok [RunComp.imgsComp ["out.nii"], RunComp.textComp []]
    ∧ [RunComp.imgsComp ["out.nii"], RunComp.textComp []].length = 2
    ∧ (2 : Nat) ≠ 3 := by
  refine ⟨rfl, rfl, by decide⟩

/-- C6 (amended): a successful invocation returns the pair of produced
images and produced text files (each classified from the captured return
files); the exit status is not part of the return value — a non-zero exit
status instead raises an error, as does an unreadable output file. -/
theorem c6_run_return_pair (env : RunEnv) (expected : List String) :
    (env.launchFails = false → env.retcode = 0 →
      (∀ f ∈ get_return_files env.rmatch env.pre env.post expected,
        ¬ env.classify f = FileKind.unreadable) →
      run_result env expected = .ok
        [RunComp.imgsComp (runImgs env.classify
            (get_return_files env.rmatch env.pre env.post expected)),
         RunComp.textComp (runText env.classify
            (get_return_files env.rmatch env.pre env.post expected))]
      ∧ ∀ l, run_result env expected = .ok l → l.length = 2)
    ∧ (env.retcode ≠ 0 → ∃ msg, run_result env expected = .error msg) := by
  constructor
  · intro hl hr hok
    have hany : (get_return_files env.rmatch env.pre env.post expected).any
        (fun f => env.classify f = FileKind.unreadable) = false := by
      rw [List.any_eq_false]
      intro f hf
      simpa using hok f hf
    have heq : run_result env expected = .ok
        [RunComp.imgsComp (runImgs env.classify
            (get_return_files env.rmatch env.pre env.post expected)),
         RunComp.textComp (runText env.classify
            (get_return_files env.rmatch env.pre env.post expected))] := by
      unfold run_result
      rw [hl, hr]
      simp [hany]
    refine ⟨heq, ?_⟩
    intro l hlx
    rw [heq] at hlx
    cases hlx
    rfl
  · intro hr
    unfold run_result
    rcases hlf : env.launchFails with _ | _
    · simp [hr]
    · exact ⟨"launch failed", rfl⟩

/-- C6 witness: the amended pair-shape at a concrete successful run, and
the error on a non-zero exit status. -/
theorem c6_run_return_pair_witness :
    ((⟨false, 0, [], [("out.nii", 1)], fun _ _ => false,
        fun _ => FileKind.image⟩ : RunEnv).launchFails = false
      ∧ (⟨false, 0, [], [("out.nii", 1)], fun _ _ => false,
          fun _ => FileKind.image⟩ : RunEnv).retcode = 0
      ∧ (∀ f ∈ get_return_files (fun _ _ => false) []
            [("out.nii", 1)] [], ¬ (fun _ => FileKind.image) f = FileKind.unreadable)
      ∧ ((⟨false, 1, [], [], fun _ _ => false,
          fun _ => FileKind.image⟩ : RunEnv).retcode ≠ 0))
    ∧ (run_result ⟨false, 0, [], [("out.nii", 1)], fun _ _ => false,
          fun _ => FileKind.image⟩ [] = .ok
        [RunComp.imgsComp (runImgs (fun _ => FileKind.image)
            (get_return_files (fun _ _ => false) [] [("out.nii", 1)] [])),
         RunComp.textComp (runText (fun _ => FileKind.image)
            (get_return_files (fun _ _ => false) [] [("out.nii", 1)] []))])
    ∧ (∃ msg, run_result ⟨false, 1, [], [], fun _ _ => false,
        fun _ => FileKind.image⟩ [] = .error msg) := by
  refine ⟨⟨rfl, rfl, by decide, by decide⟩, ?_, ?_⟩
  · exact ((c6_run_return_pair ⟨false, 0, [], [("out.nii", 1)], fun _ _ => false,
      fun _ => FileKind.image⟩ []).1 rfl rfl (by decide)).1
  · exact (c6_run_return_pair ⟨false, 1, [], [], fun _ _ => false,
      fun _ => FileKind.image⟩ []).2 (by decide)

end QpAsl
